import Mathlib

/-!
Verification development for the magic-partitioning repository.

The source implements `magic_partition(h, n)`: a deterministic map from a
32-bit fingerprint `h` and a partition count `n >= 2` to a bucket in `[0, n)`,
built on a pseudorandom bit oracle `bit_function_B(o, h)` which extracts bit
`o mod 32` of `hash_function_H(o div 32, h)`, where `hash_function_H` feeds the
little-endian 4-byte encodings of its two arguments through MurmurHash3
(x86, 32-bit, seed 0 — the behaviour of the `mmh3.hash(data, signed=False)`
library call in the source).

Embedding notes:
* Machine integers are `Nat` with explicit reduction `% 2^32` where the Python
  code relies on 32-bit wrap-around (inside MurmurHash3 only; everything else
  in the source is arbitrary-precision Python `int`).
* The unbounded `while True` retry loop of `magic_partition` is embedded with
  an explicit attempt budget `fuel` (`mpLoopB`): `some v` means the loop
  returned `v` within `fuel` attempts, `none` means it is still retrying.
  The inner descent loops (`while p >= 1`, with `p` halving each step) are
  embedded with a structural fuel that is always at least `p`, so they are
  total and kernel-computable; callers pass a sufficient fuel.
* The loops are parametrised by the bit oracle `B : Nat → Nat` (position to
  bit), exactly as the source calls `bit_function_B(position, h)`; the
  concrete instantiation is `bitB h`.
* A second, Python-level embedding (`magic_partition_py`) lives in
  `Except PyError` and models the two ways the source can raise: the explicit
  `ValueError` for `n < 2`, and the `OverflowError` that `int.to_bytes(4,
  'little')` raises inside `hash_function_H` when an argument is outside
  `[0, 2^32)`.
-/

/-- Modulus for 32-bit arithmetic. -/
def M32 : Nat := 4294967296

/-- Rotate a 32-bit value left by `r` bits (`0 < r < 32`, `x < 2^32`). -/
def rotl32 (x r : Nat) : Nat := ((x <<< r) + (x >>> (32 - r))) % M32

/-- Finalisation mix of MurmurHash3 (x86, 32-bit). -/
def fmix32 (x : Nat) : Nat :=
  let x1 := x ^^^ (x >>> 16)
  let x2 := (x1 * 0x85ebca6b) % M32
  let x3 := x2 ^^^ (x2 >>> 13)
  let x4 := (x3 * 0xc2b2ae35) % M32
  x4 ^^^ (x4 >>> 16)

/-- Body step of MurmurHash3 (x86, 32-bit): absorb one 4-byte block `k`. -/
def murmurBody (acc k : Nat) : Nat :=
  let k1 := (k * 0xcc9e2d51) % M32
  let k2 := rotl32 k1 15
  let k3 := (k2 * 0x1b873593) % M32
  let a1 := acc ^^^ k3
  let a2 := rotl32 a1 13
  (a2 * 5 + 0xe6546b64) % M32

/-- Little-endian recombination of four bytes into a 32-bit block. -/
def le32 (b0 b1 b2 b3 : Nat) : Nat := b0 + 256 * b1 + 65536 * b2 + 16777216 * b3

/-- Absorb all full 4-byte blocks of a byte string, little-endian. -/
def murmurBlocks (acc : Nat) : List Nat → Nat
  | b0 :: b1 :: b2 :: b3 :: rest => murmurBlocks (murmurBody acc (le32 b0 b1 b2 b3)) rest
  | _ => acc

/-- Remaining bytes of a byte string after all full 4-byte blocks. -/
def murmurRem : List Nat → List Nat
  | _ :: _ :: _ :: _ :: rest => murmurRem rest
  | r => r

/-- Tail step of MurmurHash3 (x86, 32-bit): absorb the 1–3 leftover bytes. -/
def murmurTail (acc : Nat) (tail : List Nat) : Nat :=
  match tail with
  | [] => acc
  | bs =>
    let k :=
      match bs with
      | [b0] => b0
      | [b0, b1] => b0 + 256 * b1
      | [b0, b1, b2] => b0 + 256 * b1 + 65536 * b2
      | _ => 0
    let k1 := (k * 0xcc9e2d51) % M32
    let k2 := rotl32 k1 15
    let k3 := (k2 * 0x1b873593) % M32
    acc ^^^ k3

/-- MurmurHash3 (x86, 32-bit) of a byte string with seed 0: the behaviour of
the source's `mmh3.hash(data, signed=False)` call. -/
def mmh3_hash (data : List Nat) : Nat :=
  fmix32 (murmurTail (murmurBlocks 0 data) (murmurRem data) ^^^ data.length)

/-- Little-endian 4-byte encoding of a 32-bit value, as Python's
`y.to_bytes(4, 'little')` produces for in-range `y`. -/
def to_bytes_le4 (y : Nat) : List Nat :=
  [y % 256, y / 256 % 256, y / 65536 % 256, y / 16777216 % 256]

/-- Source `hash_function_H(y, z)`: hash the concatenation of the little-endian
4-byte encodings of `y` and `z` with MurmurHash3. -/
def hash_function_H (y z : Nat) : Nat :=
  mmh3_hash (to_bytes_le4 y ++ to_bytes_le4 z)

/-- Source `bit_function_B(o, h)`: bit `o mod 32` of `hash_function_H(o div 32, h)`,
computed as the source computes it, by shift and mask. -/
def bit_function_B (o h : Nat) : Nat :=
  (hash_function_H (o / 32) h >>> (o % 32)) &&& 1

/-- Fueled helper for `bit_length`; the fuel only needs to exceed the number of
binary digits, and callers pass `m` itself. -/
def bit_length_aux : Nat → Nat → Nat
  | 0, _ => 0
  | fuel + 1, m => if m = 0 then 0 else bit_length_aux fuel (m / 2) + 1

/-- Python's `int.bit_length()` for non-negative integers: the number of binary
digits, with `bit_length 0 = 0`. The source computes `k = (n - 1).bit_length()`. -/
def bit_length (m : Nat) : Nat := bit_length_aux m m

/-- Low-branch descent loop of `magic_partition` (the source's `while p >= 1`
loop on the MSB-0 path): starting from accumulator `v`, weight `p` and bit
position `o`, add `p` to `v` whenever the oracle bit at `o` is 1, stepping
`o` down by 1 on a 1-bit and by `p` on a 0-bit, halving `p` each level.
`B` is the bit oracle (the source calls `bit_function_B(o, h)`; no retry
offset is applied on this path). The structural `fuel` is an embedding
artefact; callers pass `fuel >= p`, which always suffices since `p` halves. -/
def lowLoopB (B : Nat → Nat) : Nat → Nat → Nat → Nat → Nat
  | 0, v, _, _ => v
  | fuel + 1, v, p, o =>
    if p = 0 then v
    else if B o = 1 then lowLoopB B fuel (v + p) (p / 2) (o - 1)
    else lowLoopB B fuel v (p / 2) (o - p)

/-- High-branch descent loop of `magic_partition` (the source's `while p >= 1`
loop on the MSB-1 path, followed by its `if v < n: return v` check):
like the low loop but with every oracle position offset by the retry
offset `t`, and with the overflow test — as soon as `v + p >= n` on a 1-bit
the attempt is abandoned (`none`, the source's `break` into a retry).
`some v` is the source's `return v`. -/
def highLoopB (B : Nat → Nat) (n t : Nat) : Nat → Nat → Nat → Nat → Option Nat
  | 0, v, _, _ => if v < n then some v else none
  | fuel + 1, v, p, o =>
    if p = 0 then (if v < n then some v else none)
    else if B (o + t) = 1 then
      if n ≤ v + p then none
      else highLoopB B n t fuel (v + p) (p / 2) (o - 1)
    else highLoopB B n t fuel v (p / 2) (o - p)

/-- One iteration of the source's `while True` loop: test the root bit at
position `s - 1 + t`; on 1 enter the high branch with `v = s/2`, on 0 enter
the low branch. `some v` means the iteration returned `v`; `none` means the
high branch overflowed and a retry is needed. -/
def attemptB (B : Nat → Nat) (n s t : Nat) : Option Nat :=
  let p := s / 2
  let o := s - 1
  if B (o + t) = 1 then
    highLoopB B n t (p / 2) p (p / 2) (o - 1)
  else
    some (lowLoopB B (p / 2) 0 (p / 2) (o - p))

/-- The source's `while True` retry loop, with an explicit attempt budget:
run attempts at retry offsets `t, t + s, t + 2s, ...`; `some v` is the
value returned by the first accepted attempt, `none` means every attempt
within the budget was rejected and the loop is still running. -/
def mpLoopB (B : Nat → Nat) (n s : Nat) : Nat → Nat → Option Nat
  | 0, _ => none
  | fuel + 1, t =>
    match attemptB B n s t with
    | some v => some v
    | none => mpLoopB B n s fuel (t + s)

/-- Result of one evaluation of the source's `magic_partition`:
`invalidArgument` is the `ValueError` raised for `n < 2`, `value v` is a
normal return, and `running` means the retry loop has not yet accepted an
attempt within the given budget. -/
inductive MPResult where
  | invalidArgument : MPResult
  | value : Nat → MPResult
  | running : MPResult
deriving DecidableEq

/-- The concrete bit oracle of the source for fingerprint `h`, as a function
of the bit position. -/
def bitB (h : Nat) : Nat → Nat := fun o => bit_function_B o h

/-- Source `magic_partition(h, n)`, with an explicit attempt budget `fuel` for
the unbounded retry loop: validate `n >= 2`, compute `k = (n-1).bit_length()`
and `s = 2^k`, then run the retry loop from offset `t = 0`. -/
def magic_partition (h n : Nat) (fuel : Nat) : MPResult :=
  if n < 2 then MPResult.invalidArgument
  else
    match mpLoopB (bitB h) n (2 ^ bit_length (n - 1)) fuel 0 with
    | some v => MPResult.value v
    | none => MPResult.running

/-! Python-level embedding: the same algorithm, threading the two errors the
source can raise. `int.to_bytes(4, 'little')` raises `OverflowError` when its
receiver is negative or at least `2^32`; `magic_partition` itself raises
`ValueError("n must be >= 2")` when `n < 2`. The fingerprint is therefore
taken as an `Int` here. -/

/-- Errors the source can raise: `valueError` for the explicit `n < 2` check,
`overflowError` from `int.to_bytes` inside `hash_function_H`. -/
inductive PyError where
  | valueError : PyError
  | overflowError : PyError
deriving DecidableEq

/-- Python `y.to_bytes(4, 'little')`: the little-endian bytes for
`0 <= y < 2^32`, an `OverflowError` otherwise (CPython rejects a negative
receiver first, then one whose magnitude does not fit in 4 bytes). -/
def to_bytes4_py (y : Int) : Except PyError (List Nat) :=
  match y with
  | Int.ofNat m =>
    if m < 4294967296 then Except.ok (to_bytes_le4 m)
    else Except.error PyError.overflowError
  | Int.negSucc _ => Except.error PyError.overflowError

/-- Source `hash_function_H(y, z)` with Python error semantics: `y.to_bytes`
is evaluated first, then `z.to_bytes`, then the concatenation is hashed. -/
def hash_function_H_py (y z : Int) : Except PyError Nat :=
  match to_bytes4_py y with
  | Except.error e => Except.error e
  | Except.ok a =>
    match to_bytes4_py z with
    | Except.error e => Except.error e
    | Except.ok b => Except.ok (mmh3_hash (a ++ b))

/-- Source `bit_function_B(o, h)` with Python error semantics. -/
def bit_function_B_py (o : Nat) (h : Int) : Except PyError Nat :=
  match hash_function_H_py (Int.ofNat (o / 32)) h with
  | Except.error e => Except.error e
  | Except.ok w => Except.ok ((w >>> (o % 32)) &&& 1)

/-- Low-branch descent loop with Python error semantics (compare `lowLoopB`). -/
def lowLoopPy (h : Int) : Nat → Nat → Nat → Nat → Except PyError Nat
  | 0, v, _, _ => Except.ok v
  | fuel + 1, v, p, o =>
    if p = 0 then Except.ok v
    else
      match bit_function_B_py o h with
      | Except.error e => Except.error e
      | Except.ok b =>
        if b = 1 then lowLoopPy h fuel (v + p) (p / 2) (o - 1)
        else lowLoopPy h fuel v (p / 2) (o - p)

/-- High-branch descent loop with Python error semantics (compare `highLoopB`). -/
def highLoopPy (h : Int) (n t : Nat) : Nat → Nat → Nat → Nat → Except PyError (Option Nat)
  | 0, v, _, _ => Except.ok (if v < n then some v else none)
  | fuel + 1, v, p, o =>
    if p = 0 then Except.ok (if v < n then some v else none)
    else
      match bit_function_B_py (o + t) h with
      | Except.error e => Except.error e
      | Except.ok b =>
        if b = 1 then
          if n ≤ v + p then Except.ok none
          else highLoopPy h n t fuel (v + p) (p / 2) (o - 1)
        else highLoopPy h n t fuel v (p / 2) (o - p)

/-- One retry-loop iteration with Python error semantics (compare `attemptB`). -/
def attemptPy (h : Int) (n s t : Nat) : Except PyError (Option Nat) :=
  let p := s / 2
  let o := s - 1
  match bit_function_B_py (o + t) h with
  | Except.error e => Except.error e
  | Except.ok b =>
    if b = 1 then highLoopPy h n t (p / 2) p (p / 2) (o - 1)
    else
      match lowLoopPy h (p / 2) 0 (p / 2) (o - p) with
      | Except.error e => Except.error e
      | Except.ok v => Except.ok (some v)

/-- The retry loop with Python error semantics (compare `mpLoopB`). -/
def mpLoopPy (h : Int) (n s : Nat) : Nat → Nat → Except PyError (Option Nat)
  | 0, _ => Except.ok none
  | fuel + 1, t =>
    match attemptPy h n s t with
    | Except.error e => Except.error e
    | Except.ok (some v) => Except.ok (some v)
    | Except.ok none => mpLoopPy h n s fuel (t + s)

/-- Source `magic_partition(h, n)` with Python error semantics: the `n < 2`
validation runs first and raises `ValueError`; any other raise comes from
`int.to_bytes` inside the oracle. `Except.ok (some v)` is a normal return and
`Except.ok none` means the retry loop is still running after `fuel` attempts. -/
def magic_partition_py (h : Int) (n fuel : Nat) : Except PyError (Option Nat) :=
  if n < 2 then Except.error PyError.valueError
  else mpLoopPy h n (2 ^ bit_length (n - 1)) fuel 0

/-! Properties of `bit_length`. -/

theorem bit_length_aux_zero (fuel : Nat) : bit_length_aux fuel 0 = 0 := by
  cases fuel <;> simp [bit_length_aux]

theorem bit_length_aux_lt (fuel : Nat) :
    ∀ m, m ≤ fuel → m < 2 ^ bit_length_aux fuel m := by
  induction fuel with
  | zero => intro m hm; interval_cases m; simp [bit_length_aux]
  | succ f ih =>
    intro m hm
    by_cases h0 : m = 0
    · subst h0; simp [bit_length_aux]
    · have h2 : m / 2 ≤ f := by omega
      have := ih (m / 2) h2
      simp only [bit_length_aux, h0, if_false]
      have hp : 2 ^ (bit_length_aux f (m / 2) + 1) = 2 * 2 ^ bit_length_aux f (m / 2) := by
        rw [Nat.pow_succ]; ring
      omega

theorem bit_length_aux_pos (fuel m : Nat) (h1 : 1 ≤ m) (h2 : m ≤ fuel) :
    1 ≤ bit_length_aux fuel m := by
  cases fuel with
  | zero => omega
  | succ f =>
    simp only [bit_length_aux]
    rw [if_neg (show ¬ m = 0 by omega)]
    omega

theorem bit_length_aux_le (fuel : Nat) :
    ∀ m, 1 ≤ m → m ≤ fuel → 2 ^ (bit_length_aux fuel m - 1) ≤ m := by
  induction fuel with
  | zero => intro m h1 h2; omega
  | succ f ih =>
    intro m h1 h2
    have h0 : ¬ m = 0 := by omega
    simp only [bit_length_aux, h0, if_false, Nat.add_sub_cancel]
    by_cases hm1 : m = 1
    · subst hm1; simp [bit_length_aux_zero]
    · have hh : 1 ≤ m / 2 := by omega
      have hf : m / 2 ≤ f := by omega
      have ihm := ih (m / 2) hh hf
      have hpos := bit_length_aux_pos f (m / 2) hh hf
      have hp : 2 ^ bit_length_aux f (m / 2) = 2 * 2 ^ (bit_length_aux f (m / 2) - 1) := by
        obtain ⟨b, hb⟩ : ∃ b, bit_length_aux f (m / 2) = b + 1 :=
          ⟨bit_length_aux f (m / 2) - 1, by omega⟩
        rw [hb, Nat.add_sub_cancel, Nat.pow_succ]; ring
      omega

theorem bit_length_lt (m : Nat) : m < 2 ^ bit_length m :=
  bit_length_aux_lt m m (Nat.le_refl m)

theorem bit_length_pos (m : Nat) (h : 1 ≤ m) : 1 ≤ bit_length m :=
  bit_length_aux_pos m m h (Nat.le_refl m)

theorem bit_length_le (m : Nat) (h : 1 ≤ m) : 2 ^ (bit_length m - 1) ≤ m :=
  bit_length_aux_le m m h (Nat.le_refl m)

theorem bit_length_eq (m c : Nat) (hm : 1 ≤ m) (hc : 1 ≤ c)
    (h1 : 2 ^ (c - 1) ≤ m) (h2 : m < 2 ^ c) : bit_length m = c := by
  have hd1 := bit_length_pos m hm
  have hd2 := bit_length_le m hm
  have hd3 := bit_length_lt m
  rcases Nat.lt_trichotomy (bit_length m) c with h | h | h
  · exfalso
    have : 2 ^ bit_length m ≤ 2 ^ (c - 1) := Nat.pow_le_pow_right (by omega) (by omega)
    omega
  · exact h
  · exfalso
    have : 2 ^ c ≤ 2 ^ (bit_length m - 1) := Nat.pow_le_pow_right (by omega) (by omega)
    omega

/-! Properties of the descent loops. -/

theorem lowLoopB_le (B : Nat → Nat) (fuel : Nat) :
    ∀ v p o, lowLoopB B fuel v p o ≤ v + 2 * p := by
  induction fuel with
  | zero => intro v p o; simp [lowLoopB]
  | succ f ih =>
    intro v p o
    by_cases hp : p = 0
    · simp [lowLoopB, hp]
    · by_cases hb : B o = 1
      · simp only [lowLoopB, hp, if_false, hb, if_true]
        have := ih (v + p) (p / 2) (o - 1)
        omega
      · simp only [lowLoopB, hp, if_false, hb]
        have := ih v (p / 2) (o - p)
        omega

theorem lowLoopB_fuel_irrel (B : Nat → Nat) (f : Nat) :
    ∀ f' v p o, p ≤ f → p ≤ f' → lowLoopB B f v p o = lowLoopB B f' v p o := by
  induction f with
  | zero =>
    intro f' v p o hf hf'
    have hp : p = 0 := by omega
    cases f' <;> simp [lowLoopB, hp]
  | succ g ih =>
    intro f' v p o hf hf'
    by_cases hp : p = 0
    · cases f' <;> simp [lowLoopB, hp]
    · obtain ⟨g', rfl⟩ : ∃ g', f' = g' + 1 := ⟨f' - 1, by omega⟩
      have h1 : p / 2 ≤ g := by omega
      have h2 : p / 2 ≤ g' := by omega
      by_cases hb : B o = 1
      · simp only [lowLoopB, hp, if_false, hb, if_true]
        exact ih g' (v + p) (p / 2) (o - 1) h1 h2
      · simp only [lowLoopB, hp, if_false, hb]
        exact ih g' v (p / 2) (o - p) h1 h2

theorem highLoopB_some_lt (B : Nat → Nat) (n t fuel : Nat) :
    ∀ v p o w, highLoopB B n t fuel v p o = some w → w < n := by
  induction fuel with
  | zero =>
    intro v p o w hw
    simp only [highLoopB] at hw
    by_cases hv : v < n
    · simp [hv] at hw; omega
    · simp [hv] at hw
  | succ f ih =>
    intro v p o w hw
    simp only [highLoopB] at hw
    by_cases hp : p = 0
    · simp only [hp, if_true] at hw
      by_cases hv : v < n
      · simp [hv] at hw; omega
      · simp [hv] at hw
    · simp only [hp, if_false] at hw
      by_cases hb : B (o + t) = 1
      · simp only [hb, if_true] at hw
        by_cases hn : n ≤ v + p
        · simp [hn] at hw
        · simp only [hn, if_false] at hw
          exact ih _ _ _ _ hw
      · simp only [hb, if_false] at hw
        exact ih _ _ _ _ hw

theorem highLoopB_mono (B : Nat → Nat) (n t fuel : Nat) :
    ∀ v p o w, highLoopB B n t fuel v p o = some w →
      highLoopB B (n + 1) t fuel v p o = some w := by
  induction fuel with
  | zero =>
    intro v p o w hw
    simp only [highLoopB] at hw ⊢
    by_cases hv : v < n
    · simp [hv] at hw
      rw [if_pos (show v < n + 1 by omega), hw]
    · simp [hv] at hw
  | succ f ih =>
    intro v p o w hw
    simp only [highLoopB] at hw ⊢
    by_cases hp : p = 0
    · simp only [hp, if_true] at hw ⊢
      by_cases hv : v < n
      · simp [hv] at hw
        rw [if_pos (show v < n + 1 by omega), hw]
      · simp [hv] at hw
    · simp only [hp, if_false] at hw ⊢
      by_cases hb : B (o + t) = 1
      · simp only [hb, if_true] at hw ⊢
        by_cases hn : n ≤ v + p
        · simp [hn] at hw
        · simp only [hn, if_false] at hw
          rw [if_neg (show ¬ n + 1 ≤ v + p by omega)]
          exact ih _ _ _ _ hw
      · simp only [hb, if_false] at hw ⊢
        exact ih _ _ _ _ hw

theorem highLoopB_at_top (B : Nat → Nat) (n t fuel : Nat) :
    ∀ q o, highLoopB B (n + 1) t fuel n q o = none ∨
      highLoopB B (n + 1) t fuel n q o = some n := by
  induction fuel with
  | zero =>
    intro q o
    simp [highLoopB]
  | succ f ih =>
    intro q o
    simp only [highLoopB]
    by_cases hp : q = 0
    · simp [hp]
    · simp only [hp, if_false]
      by_cases hb : B (o + t) = 1
      · simp only [hb, if_true]
        rw [if_pos (show n + 1 ≤ n + q by omega)]
        left; rfl
      · simp only [hb, if_false]
        exact ih (q / 2) (o - q)

theorem highLoopB_reject (B : Nat → Nat) (n t fuel : Nat) :
    ∀ v p o, highLoopB B n t fuel v p o = none →
      highLoopB B (n + 1) t fuel v p o = none ∨
        highLoopB B (n + 1) t fuel v p o = some n := by
  induction fuel with
  | zero =>
    intro v p o hw
    simp only [highLoopB] at hw ⊢
    by_cases hv : v < n
    · simp [hv] at hw
    · simp only [hv, if_false] at hw
      by_cases hv1 : v < n + 1
      · have : v = n := by omega
        subst this; simp
      · simp [hv1]
  | succ f ih =>
    intro v p o hw
    simp only [highLoopB] at hw ⊢
    by_cases hp : p = 0
    · simp only [hp, if_true] at hw ⊢
      by_cases hv : v < n
      · simp [hv] at hw
      · simp only [hv, if_false] at hw
        by_cases hv1 : v < n + 1
        · have : v = n := by omega
          subst this; simp
        · simp [hv1]
    · simp only [hp, if_false] at hw ⊢
      by_cases hb : B (o + t) = 1
      · simp only [hb, if_true] at hw ⊢
        by_cases hn : n ≤ v + p
        · by_cases hn1 : n + 1 ≤ v + p
          · simp [hn1]
          · have hvp : v + p = n := by omega
            rw [if_neg (show ¬ n + 1 ≤ v + p by omega), hvp]
            exact highLoopB_at_top B n t f (p / 2) (o - 1)
        · simp only [hn, if_false] at hw
          rw [if_neg (show ¬ n + 1 ≤ v + p by omega)]
          exact ih _ _ _ hw
      · simp only [hb, if_false] at hw ⊢
        exact ih _ _ _ hw

theorem highLoopB_eq_low (B : Nat → Nat) (n fuel : Nat) :
    ∀ v p o, v + 2 * p ≤ n → v < n →
      highLoopB B n 0 fuel v p o = some (lowLoopB B fuel v p o) := by
  induction fuel with
  | zero =>
    intro v p o h2 hv
    simp [highLoopB, lowLoopB, hv]
  | succ f ih =>
    intro v p o h2 hv
    simp only [highLoopB, lowLoopB, Nat.add_zero]
    by_cases hp : p = 0
    · simp [hp, hv]
    · simp only [hp, if_false]
      by_cases hb : B o = 1
      · simp only [hb, if_true]
        rw [if_neg (show ¬ n ≤ v + p by omega)]
        exact ih (v + p) (p / 2) (o - 1) (by omega) (by omega)
      · simp only [hb, if_false]
        exact ih v (p / 2) (o - p) (by omega) hv

/-! Properties of a single attempt of the retry loop. -/

theorem attemptB_some_lt (B : Nat → Nat) (n s t : Nat) (hs : s / 2 < n) :
    ∀ w, attemptB B n s t = some w → w < n := by
  intro w hw
  simp only [attemptB] at hw
  by_cases hb : B (s - 1 + t) = 1
  · simp only [hb, if_true] at hw
    exact highLoopB_some_lt B n t _ _ _ _ _ hw
  · simp only [hb, if_false, Option.some_inj] at hw
    have := lowLoopB_le B (s / 2 / 2) 0 (s / 2 / 2) (s - 1 - s / 2)
    omega

theorem attemptB_mono (B : Nat → Nat) (n s t : Nat) :
    ∀ w, attemptB B n s t = some w → attemptB B (n + 1) s t = some w := by
  intro w hw
  simp only [attemptB] at hw ⊢
  by_cases hb : B (s - 1 + t) = 1
  · simp only [hb, if_true] at hw ⊢
    exact highLoopB_mono B n t _ _ _ _ _ hw
  · simp only [hb, if_false] at hw ⊢
    exact hw

theorem attemptB_reject (B : Nat → Nat) (n s t : Nat) :
    attemptB B n s t = none →
      attemptB B (n + 1) s t = none ∨ attemptB B (n + 1) s t = some n := by
  intro hw
  simp only [attemptB] at hw ⊢
  by_cases hb : B (s - 1 + t) = 1
  · simp only [hb, if_true] at hw ⊢
    exact highLoopB_reject B n t _ _ _ _ hw
  · simp [hb] at hw

/-! Properties of the retry loop. -/

theorem mpLoopB_some_lt (B : Nat → Nat) (n s : Nat) (hs : s / 2 < n) :
    ∀ fuel t w, mpLoopB B n s fuel t = some w → w < n := by
  intro fuel
  induction fuel with
  | zero => intro t w hw; simp [mpLoopB] at hw
  | succ f ih =>
    intro t w hw
    simp only [mpLoopB] at hw
    cases ha : attemptB B n s t with
    | some u =>
      rw [ha] at hw
      simp only [Option.some_inj] at hw
      subst hw
      exact attemptB_some_lt B n s t hs u ha
    | none =>
      rw [ha] at hw
      exact ih (t + s) w hw

theorem mpLoopB_det (B : Nat → Nat) (n s : Nat) :
    ∀ fuel fuel' t v w, mpLoopB B n s fuel t = some v →
      mpLoopB B n s fuel' t = some w → v = w := by
  intro fuel
  induction fuel with
  | zero => intro fuel' t v w hv; simp [mpLoopB] at hv
  | succ f ih =>
    intro fuel' t v w hv hw
    obtain ⟨f', rfl⟩ : ∃ f', fuel' = f' + 1 := by
      cases fuel' with
      | zero => simp [mpLoopB] at hw
      | succ g => exact ⟨g, rfl⟩
    simp only [mpLoopB] at hv hw
    cases ha : attemptB B n s t with
    | some u =>
      rw [ha] at hv hw
      simp only [Option.some_inj] at hv hw
      omega
    | none =>
      rw [ha] at hv hw
      exact ih f' (t + s) v w hv hw

theorem mpLoopB_pair (B : Nat → Nat) (n s : Nat) :
    ∀ fuel fuel' t v w, mpLoopB B n s fuel t = some v →
      mpLoopB B (n + 1) s fuel' t = some w → w = v ∨ w = n := by
  intro fuel
  induction fuel with
  | zero => intro fuel' t v w hv; simp [mpLoopB] at hv
  | succ f ih =>
    intro fuel' t v w hv hw
    obtain ⟨f', rfl⟩ : ∃ f', fuel' = f' + 1 := by
      cases fuel' with
      | zero => simp [mpLoopB] at hw
      | succ g => exact ⟨g, rfl⟩
    simp only [mpLoopB] at hv hw
    cases ha : attemptB B n s t with
    | some u =>
      rw [ha] at hv
      simp only [Option.some_inj] at hv
      rw [attemptB_mono B n s t u ha] at hw
      simp only [Option.some_inj] at hw
      omega
    | none =>
      rw [ha] at hv
      rcases attemptB_reject B n s t ha with h2 | h2
      · rw [h2] at hw
        exact ih f' (t + s) v w hv hw
      · rw [h2] at hw
        simp only [Option.some_inj] at hw
        omega

/-! Behaviour across a power-of-two boundary: when `n = s` every leaf of the
`s`-leaf tree is valid, and doubling the tree makes the old tree the low
half of the new one. -/

theorem attemptB_self_eq (B : Nat → Nat) (n : Nat) (hn : 2 ≤ n) (he : 2 ∣ n) :
    attemptB B n n 0 = some (lowLoopB B (n / 2) 0 (n / 2) (n - 1)) := by
  obtain ⟨m, rfl⟩ := he
  obtain ⟨g, rfl⟩ : ∃ g, m = g + 1 := ⟨m - 1, by omega⟩
  have e1 : 2 * (g + 1) / 2 = g + 1 := by omega
  simp only [attemptB, Nat.add_zero, e1]
  have e2 : lowLoopB B (g + 1) 0 (g + 1) (2 * (g + 1) - 1) =
      if B (2 * (g + 1) - 1) = 1 then
        lowLoopB B g (0 + (g + 1)) ((g + 1) / 2) (2 * (g + 1) - 1 - 1)
      else lowLoopB B g 0 ((g + 1) / 2) (2 * (g + 1) - 1 - (g + 1)) := by
    simp only [lowLoopB]
    rw [if_neg (show ¬ g + 1 = 0 by omega)]
  rw [e2]
  by_cases hb : B (2 * (g + 1) - 1) = 1
  · simp only [hb, if_true]
    rw [highLoopB_eq_low B (2 * (g + 1)) ((g + 1) / 2) (g + 1) ((g + 1) / 2)
      (2 * (g + 1) - 1 - 1) (by omega) (by omega)]
    rw [lowLoopB_fuel_irrel B ((g + 1) / 2) g (g + 1) ((g + 1) / 2)
      (2 * (g + 1) - 1 - 1) (Nat.le_refl _) (by omega)]
    rw [show 0 + (g + 1) = g + 1 by omega]
  · simp only [hb, if_false]
    rw [lowLoopB_fuel_irrel B ((g + 1) / 2) g 0 ((g + 1) / 2)
      (2 * (g + 1) - 1 - (g + 1)) (Nat.le_refl _) (by omega)]

theorem attemptB_cross (B : Nat → Nat) (n t : Nat) (hn : 2 ≤ n) :
    ∀ u, attemptB B (n + 1) (2 * n) t = some u →
      u = lowLoopB B (n / 2) 0 (n / 2) (n - 1) ∨ u = n := by
  intro u hu
  have e1 : 2 * n / 2 = n := by omega
  have e2 : 2 * n - 1 - n = n - 1 := by omega
  simp only [attemptB, e1, e2] at hu
  by_cases hb : B (2 * n - 1 + t) = 1
  · simp only [hb, if_true] at hu
    rcases highLoopB_at_top B n t (n / 2) (n / 2) (2 * n - 1 - 1) with h | h
    · rw [h] at hu; cases hu
    · rw [h] at hu
      simp only [Option.some_inj] at hu
      right; omega
  · simp only [hb, if_false, Option.some_inj] at hu
    left; omega

theorem mpLoopB_cross (B : Nat → Nat) (n : Nat) (hn : 2 ≤ n) :
    ∀ fuel t w, mpLoopB B (n + 1) (2 * n) fuel t = some w →
      w = lowLoopB B (n / 2) 0 (n / 2) (n - 1) ∨ w = n := by
  intro fuel
  induction fuel with
  | zero => intro t w hw; simp [mpLoopB] at hw
  | succ f ih =>
    intro t w hw
    simp only [mpLoopB] at hw
    cases ha : attemptB B (n + 1) (2 * n) t with
    | some u =>
      rw [ha] at hw
      simp only [Option.some_inj] at hw
      subst hw
      exact attemptB_cross B n t hn u ha
    | none =>
      rw [ha] at hw
      exact ih (t + 2 * n) w hw

/-! The only error the algorithm body can produce is `overflowError`; the
`valueError` comes exclusively from the entry validation. -/

theorem to_bytes4_py_no_ve (y : Int) (e : PyError)
    (hh : to_bytes4_py y = Except.error e) : e = PyError.overflowError := by
  cases y with
  | ofNat m =>
    simp only [to_bytes4_py] at hh
    by_cases hc : m < 4294967296
    · rw [if_pos hc] at hh; cases hh
    · rw [if_neg hc] at hh
      simp only [Except.error.injEq] at hh
      exact hh.symm
  | negSucc k =>
    simp only [to_bytes4_py] at hh
    simp only [Except.error.injEq] at hh
    exact hh.symm

theorem hash_function_H_py_no_ve (y z : Int) (e : PyError)
    (hh : hash_function_H_py y z = Except.error e) : e = PyError.overflowError := by
  unfold hash_function_H_py at hh
  cases ha : to_bytes4_py y with
  | error e1 =>
    rw [ha] at hh
    simp only [Except.error.injEq] at hh
    subst hh
    exact to_bytes4_py_no_ve y _ ha
  | ok a =>
    rw [ha] at hh
    cases hb : to_bytes4_py z with
    | error e2 =>
      rw [hb] at hh
      simp only [Except.error.injEq] at hh
      subst hh
      exact to_bytes4_py_no_ve z _ hb
    | ok b =>
      rw [hb] at hh
      cases hh

theorem bit_function_B_py_no_ve (o : Nat) (h : Int) (e : PyError)
    (hh : bit_function_B_py o h = Except.error e) : e = PyError.overflowError := by
  unfold bit_function_B_py at hh
  cases ha : hash_function_H_py (Int.ofNat (o / 32)) h with
  | error e1 =>
    rw [ha] at hh
    simp only [Except.error.injEq] at hh
    subst hh
    exact hash_function_H_py_no_ve _ h _ ha
  | ok w =>
    rw [ha] at hh
    cases hh

theorem lowLoopPy_no_ve (h : Int) :
    ∀ fuel v p o e, lowLoopPy h fuel v p o = Except.error e →
      e = PyError.overflowError := by
  intro fuel
  induction fuel with
  | zero => intro v p o e hh; cases hh
  | succ f ih =>
    intro v p o e hh
    simp only [lowLoopPy] at hh
    by_cases hp : p = 0
    · rw [if_pos hp] at hh; cases hh
    · rw [if_neg hp] at hh
      split at hh
      · rename_i e1 heq
        cases hh
        exact bit_function_B_py_no_ve o h _ heq
      · rename_i b heq
        by_cases h1 : b = 1
        · rw [if_pos h1] at hh; exact ih _ _ _ _ hh
        · rw [if_neg h1] at hh; exact ih _ _ _ _ hh

theorem highLoopPy_no_ve (h : Int) (n t : Nat) :
    ∀ fuel v p o e, highLoopPy h n t fuel v p o = Except.error e →
      e = PyError.overflowError := by
  intro fuel
  induction fuel with
  | zero => intro v p o e hh; cases hh
  | succ f ih =>
    intro v p o e hh
    simp only [highLoopPy] at hh
    by_cases hp : p = 0
    · rw [if_pos hp] at hh; cases hh
    · rw [if_neg hp] at hh
      split at hh
      · rename_i e1 heq
        cases hh
        exact bit_function_B_py_no_ve (o + t) h _ heq
      · rename_i b heq
        by_cases h1 : b = 1
        · rw [if_pos h1] at hh
          by_cases h2 : n ≤ v + p
          · rw [if_pos h2] at hh; cases hh
          · rw [if_neg h2] at hh; exact ih _ _ _ _ hh
        · rw [if_neg h1] at hh; exact ih _ _ _ _ hh

theorem attemptPy_no_ve (h : Int) (n s t : Nat) (e : PyError)
    (hh : attemptPy h n s t = Except.error e) : e = PyError.overflowError := by
  simp only [attemptPy] at hh
  split at hh
  · rename_i e1 heq
    cases hh
    exact bit_function_B_py_no_ve (s - 1 + t) h _ heq
  · rename_i b heq
    by_cases h1 : b = 1
    · rw [if_pos h1] at hh
      exact highLoopPy_no_ve h n t _ _ _ _ e hh
    · rw [if_neg h1] at hh
      split at hh
      · rename_i e2 heq2
        cases hh
        exact lowLoopPy_no_ve h _ _ _ _ _ heq2
      · cases hh

theorem mpLoopPy_no_ve (h : Int) (n s : Nat) :
    ∀ fuel t e, mpLoopPy h n s fuel t = Except.error e →
      e = PyError.overflowError := by
  intro fuel
  induction fuel with
  | zero => intro t e hh; cases hh
  | succ f ih =>
    intro t e hh
    simp only [mpLoopPy] at hh
    split at hh
    · rename_i e1 heq
      cases hh
      exact attemptPy_no_ve h n s t _ heq
    · cases hh
    · rename_i heq
      exact ih (t + s) e hh

/-! Out-of-range fingerprints make the very first oracle call raise. -/

theorem bit_function_B_py_overflow (o : Nat) (h : Int)
    (hr : h < 0 ∨ (4294967296 : Int) ≤ h) :
    bit_function_B_py o h = Except.error PyError.overflowError := by
  unfold bit_function_B_py hash_function_H_py
  have hz : to_bytes4_py h = Except.error PyError.overflowError := by
    cases h with
    | ofNat m =>
      simp only [to_bytes4_py]
      rw [if_neg (by simp only [Int.ofNat_eq_natCast] at hr; omega)]
    | negSucc k => rfl
  cases ha : to_bytes4_py (Int.ofNat (o / 32)) with
  | error e =>
    have he := to_bytes4_py_no_ve _ _ ha
    rw [he]
  | ok a =>
    rw [hz]

theorem attemptPy_overflow (h : Int) (n s t : Nat)
    (hr : h < 0 ∨ (4294967296 : Int) ≤ h) :
    attemptPy h n s t = Except.error PyError.overflowError := by
  simp only [attemptPy]
  rw [bit_function_B_py_overflow (s - 1 + t) h hr]

/-! Arithmetic helper. -/

theorem two_pow_pred (b : Nat) (hb : 1 ≤ b) : 2 ^ b = 2 * 2 ^ (b - 1) := by
  obtain ⟨c, rfl⟩ : ∃ c, b = c + 1 := ⟨b - 1, by omega⟩
  rw [Nat.add_sub_cancel, Nat.pow_succ]; ring

/-! Claim theorems. -/

/-- C2: Range — for every 32-bit fingerprint `h` and every `n >= 2`, whenever
`magic_partition h n` returns a value `v` (within any attempt budget), then
`0 <= v < n`: the low branch never needs a retry and stays below `n`, and any
accepted high-branch attempt is below `n` by the acceptance test. -/
theorem magic_partition_range (h n fuel v : Nat) (hh : h < 4294967296) (hn : 2 ≤ n)
    (hv : magic_partition h n fuel = MPResult.value v) : v < n := by
  have hn2 : ¬ n < 2 := by omega
  simp only [magic_partition, hn2, if_false] at hv
  have hb1 : 1 ≤ bit_length (n - 1) := bit_length_pos (n - 1) (by omega)
  have hb2 : 2 ^ (bit_length (n - 1) - 1) ≤ n - 1 := bit_length_le (n - 1) (by omega)
  have hb4 : 2 ^ bit_length (n - 1) = 2 * 2 ^ (bit_length (n - 1) - 1) :=
    two_pow_pred _ hb1
  have hs : 2 ^ bit_length (n - 1) / 2 < n := by omega
  cases hm : mpLoopB (bitB h) n (2 ^ bit_length (n - 1)) fuel 0 with
  | some u =>
    rw [hm] at hv
    simp only [MPResult.value.injEq] at hv
    subst hv
    exact mpLoopB_some_lt (bitB h) n _ hs fuel 0 u hm
  | none => rw [hm] at hv; cases hv

/-- C2 witness: a concrete evaluation, `magic_partition(12345, 3) = 2 < 3`. -/
theorem magic_partition_range_witness :
    magic_partition 12345 3 1 = MPResult.value 2 ∧ 2 < 3 :=
  ⟨by decide, magic_partition_range 12345 3 1 2 (by decide) (by decide) (by decide)⟩

/-- C7: Determinism — `magic_partition` is a pure function of `(h, n)`: any two
evaluations with identical arguments that return values return the same value,
even with different attempt budgets (the first accepted attempt is the same in
both runs; there is no hidden state). -/
theorem magic_partition_deterministic (h n fuel fuel' v w : Nat)
    (hv : magic_partition h n fuel = MPResult.value v)
    (hw : magic_partition h n fuel' = MPResult.value w) : v = w := by
  by_cases hn : n < 2
  · simp only [magic_partition, hn, if_true] at hv
    cases hv
  · simp only [magic_partition, hn, if_false] at hv hw
    cases hm : mpLoopB (bitB h) n (2 ^ bit_length (n - 1)) fuel 0 with
    | none => rw [hm] at hv; cases hv
    | some u =>
      cases hm' : mpLoopB (bitB h) n (2 ^ bit_length (n - 1)) fuel' 0 with
      | none => rw [hm'] at hw; cases hw
      | some u' =>
        rw [hm] at hv; rw [hm'] at hw
        simp only [MPResult.value.injEq] at hv hw
        have := mpLoopB_det (bitB h) n _ fuel fuel' 0 u u' hm hm'
        omega

/-- C7 witness: two evaluations of `magic_partition(12345, 5)` with different
attempt budgets both return 2. -/
theorem magic_partition_deterministic_witness :
    magic_partition 12345 5 8 = MPResult.value 2 ∧
      magic_partition 12345 5 9 = MPResult.value 2 ∧ (2 : Nat) = 2 :=
  ⟨by decide, by decide,
    magic_partition_deterministic 12345 5 8 9 2 2 (by decide) (by decide)⟩

/-- C1: Minimal disruption on resize — for every 32-bit fingerprint `h` and
every `n >= 2`, whenever `magic_partition h n` and `magic_partition h (n+1)`
both return values `v` and `w` (within any attempt budgets), `w` equals either
`v` or the new index `n`, never any other index that already existed at count
`n`. The proof covers both the same-tree-size case (`n` not a power of two:
raising the acceptance threshold from `n` to `n + 1` can only convert rejected
attempts into the value `n`) and the power-of-two-crossing case (`n = 2^k`:
the doubled tree's low half recomputes exactly the old tree's descent, and its
high half can only yield the value `n`). -/
theorem magic_partition_minimal_disruption (h n fuel fuel' v w : Nat)
    (hh : h < 4294967296) (hn : 2 ≤ n)
    (hv : magic_partition h n fuel = MPResult.value v)
    (hw : magic_partition h (n + 1) fuel' = MPResult.value w) :
    w = v ∨ w = n := by
  have hn2 : ¬ n < 2 := by omega
  have hn3 : ¬ n + 1 < 2 := by omega
  simp only [magic_partition, hn2, hn3, if_false] at hv hw
  have e0 : n + 1 - 1 = n := by omega
  rw [e0] at hw
  cases hm : mpLoopB (bitB h) n (2 ^ bit_length (n - 1)) fuel 0 with
  | none => rw [hm] at hv; cases hv
  | some u =>
    rw [hm] at hv
    simp only [MPResult.value.injEq] at hv
    subst hv
    cases hm' : mpLoopB (bitB h) (n + 1) (2 ^ bit_length n) fuel' 0 with
    | none => rw [hm'] at hw; cases hw
    | some u' =>
      rw [hm'] at hw
      simp only [MPResult.value.injEq] at hw
      subst hw
      have hb1 : 1 ≤ bit_length (n - 1) := bit_length_pos (n - 1) (by omega)
      have hb2 : 2 ^ (bit_length (n - 1) - 1) ≤ n - 1 := bit_length_le (n - 1) (by omega)
      have hb3 : n - 1 < 2 ^ bit_length (n - 1) := bit_length_lt (n - 1)
      have hb4 : 2 ^ bit_length (n - 1) = 2 * 2 ^ (bit_length (n - 1) - 1) :=
        two_pow_pred _ hb1
      by_cases hpow : n = 2 ^ bit_length (n - 1)
      · have hbn : bit_length n = bit_length (n - 1) + 1 := by
          refine bit_length_eq n (bit_length (n - 1) + 1) (by omega) (by omega) ?_ ?_
          · rw [Nat.add_sub_cancel]; omega
          · have hp1 : 2 ^ (bit_length (n - 1) + 1) = 2 * 2 ^ bit_length (n - 1) := by
              rw [Nat.pow_succ]; ring
            omega
        have hs' : 2 ^ bit_length n = 2 * n := by
          rw [hbn, Nat.pow_succ]; omega
        rw [hs'] at hm'
        have hdvd : 2 ∣ n := ⟨2 ^ (bit_length (n - 1) - 1), by omega⟩
        rw [← hpow] at hm
        obtain ⟨f0, rfl⟩ : ∃ f0, fuel = f0 + 1 := by
          cases fuel with
          | zero => cases hm
          | succ g => exact ⟨g, rfl⟩
        simp only [mpLoopB] at hm
        rw [attemptB_self_eq (bitB h) n hn hdvd] at hm
        simp only [Option.some_inj] at hm
        rcases mpLoopB_cross (bitB h) n hn fuel' 0 u' hm' with hc | hc
        · left; rw [hc]; exact hm
        · right; exact hc
      · have hbn : bit_length n = bit_length (n - 1) :=
          bit_length_eq n (bit_length (n - 1)) (by omega) hb1 (by omega) (by omega)
        rw [hbn] at hm'
        exact mpLoopB_pair (bitB h) n (2 ^ bit_length (n - 1)) fuel fuel' 0 u u' hm hm'

/-- C1 witness: the power-of-two-crossing transition 4 → 5 at `h = 12345`:
both calls return 2, and `2 = 2 ∨ 2 = 4`. -/
theorem magic_partition_minimal_disruption_witness :
    magic_partition 12345 4 1 = MPResult.value 2 ∧
      magic_partition 12345 5 8 = MPResult.value 2 ∧ ((2 : Nat) = 2 ∨ (2 : Nat) = 4) :=
  ⟨by decide, by decide,
    magic_partition_minimal_disruption 12345 4 1 8 2 2 (by decide) (by decide)
      (by decide) (by decide)⟩

/-- C10: when `n` is an exact power of two (`s = n`, every leaf valid), the
first attempt is always accepted for every fingerprint: `magic_partition` with
an attempt budget of exactly one returns a value — the overflow test can never
trigger (the high branch computes the same descent as the unrestricted low
loop) and the retry offset `t` stays 0 for the whole call. The returned value
is the plain bisection descent over the `n`-leaf tree. -/
theorem magic_partition_pow_two_first_attempt (h n k : Nat) (hh : h < 4294967296)
    (hk : n = 2 ^ k) (hn : 2 ≤ n) :
    magic_partition h n 1 = MPResult.value (lowLoopB (bitB h) (n / 2) 0 (n / 2) (n - 1)) := by
  have hk1 : 1 ≤ k := by
    cases k with
    | zero => rw [hk] at hn; norm_num at hn
    | succ g => omega
  have hpk : 2 ^ k = 2 * 2 ^ (k - 1) := two_pow_pred k hk1
  have h1p : 1 ≤ 2 ^ (k - 1) := Nat.one_le_two_pow
  have hbl : bit_length (n - 1) = k :=
    bit_length_eq (n - 1) k (by omega) hk1 (by omega) (by omega)
  have hdvd : 2 ∣ n := ⟨2 ^ (k - 1), by omega⟩
  have hn2 : ¬ n < 2 := by omega
  simp only [magic_partition, hn2, if_false, hbl, ← hk]
  simp only [mpLoopB]
  rw [attemptB_self_eq (bitB h) n hn hdvd]

/-- C10 witness: `n = 4 = 2^2` at `h = 12345`: one attempt suffices and the
value is the plain two-level descent. -/
theorem magic_partition_pow_two_first_attempt_witness :
    magic_partition 12345 4 1 =
      MPResult.value (lowLoopB (bitB 12345) (4 / 2) 0 (4 / 2) (4 - 1)) :=
  magic_partition_pow_two_first_attempt 12345 4 2 (by decide) (by decide) (by decide)

/-- C4: Invalid-argument check — `magic_partition` fails with the `ValueError`
(the source's `InvalidArgument`) exactly when `n < 2`, for every fingerprint
including out-of-range ones (which shows the `n < 2` check runs before any
oracle evaluation: an out-of-range `h` with `n < 2` still yields `ValueError`,
not the oracle's `OverflowError`); for `n >= 2` no execution raises it. -/
theorem magic_partition_py_value_error_iff (h : Int) (n fuel : Nat) :
    magic_partition_py h n fuel = Except.error PyError.valueError ↔ n < 2 := by
  constructor
  · intro hh
    by_contra hc
    rw [magic_partition_py, if_neg hc] at hh
    have := mpLoopPy_no_ve h n (2 ^ bit_length (n - 1)) fuel 0 PyError.valueError hh
    cases this
  · intro hh
    rw [magic_partition_py, if_pos hh]

/-- C9: fingerprints outside the unsigned 32-bit range are not validated at
entry; with `n >= 2` they fail on the first oracle evaluation with the
`OverflowError` raised by `int.to_bytes(4, 'little')`, an error distinct from
the `ValueError` used for invalid `n`. -/
theorem magic_partition_py_overflow (h : Int) (n fuel : Nat)
    (hr : h < 0 ∨ (4294967296 : Int) ≤ h) (hn : 2 ≤ n) (hf : 1 ≤ fuel) :
    magic_partition_py h n fuel = Except.error PyError.overflowError ∧
      PyError.overflowError ≠ PyError.valueError := by
  constructor
  · rw [magic_partition_py, if_neg (by omega)]
    obtain ⟨f0, rfl⟩ : ∃ f0, fuel = f0 + 1 := ⟨fuel - 1, by omega⟩
    simp only [mpLoopPy]
    rw [attemptPy_overflow h n _ 0 hr]
  · intro hcon; cases hcon

/-- C9 witness: `magic_partition(2^32, 2)` raises `OverflowError`, which is a
different error from `ValueError`. -/
theorem magic_partition_py_overflow_witness :
    magic_partition_py 4294967296 2 1 = Except.error PyError.overflowError ∧
      PyError.overflowError ≠ PyError.valueError :=
  magic_partition_py_overflow 4294967296 2 1 (Or.inr (by decide)) (by decide) (by decide)

/-- C5: the source has no defensive retry bound. With a broken bit oracle that
is stuck at 1 (the exact failure the spec's `InternalInvariantViolation` guard
is meant to catch) and `n = 3` (tree size `s = 4`), every attempt lands on the
overflow leaf and is rejected, and the retry loop simply keeps retrying for
every attempt budget — in particular well past 64 retries — rather than
raising any error: the code contains no attempt bound and no second error
condition at all. -/
theorem mpLoopB_broken_oracle_never_raises :
    ∀ fuel t, mpLoopB (fun _ => 1) 3 4 fuel t = none := by
  intro fuel
  induction fuel with
  | zero => intro t; rfl
  | succ f ih =>
    intro t
    have ha : attemptB (fun _ => 1) 3 4 t = none := by
      simp [attemptB, highLoopB]
    simp only [mpLoopB]
    rw [ha]
    exact ih (t + 4)

/-- C6: Bit oracle definition — `bit_function_B o h` is bit number `o mod 32`
of `hash_function_H (o div 32) h`, where `hash_function_H y z` is by definition
the MurmurHash3 (32-bit) digest of the 8-byte buffer formed by concatenating
the fixed-width 4-byte little-endian encodings of `y` and `z`; both are pure
functions. The source computes the bit by shift-and-mask; this agrees with the
specification's bit-extraction reading `Nat.testBit`. -/
theorem bit_function_B_spec (o h : Nat) :
    bit_function_B o h =
      (if Nat.testBit (mmh3_hash (to_bytes_le4 (o / 32) ++ to_bytes_le4 h)) (o % 32)
        then 1 else 0) := by
  rw [bit_function_B, Nat.and_one_is_mod, Nat.shiftRight_eq_div_pow]
  rw [show hash_function_H (o / 32) h =
    mmh3_hash (to_bytes_le4 (o / 32) ++ to_bytes_le4 h) from rfl] at *
  rw [Nat.testBit_to_div_mod]
  rcases Nat.mod_two_eq_zero_or_one
      (mmh3_hash (to_bytes_le4 (o / 32) ++ to_bytes_le4 h) / 2 ^ (o % 32)) with hm | hm <;>
    simp [hm]
